import Mathlib

/-!
Verification of the charset negotiation module (`src/charsets.rs`, `src/lib.rs`)
of the negotiator library.

The Rust source is shallowly embedded below.  Machine integers are modelled as
`Int`/`Nat` with explicit two's-complement wrapping (`wrapI64` for `isize`,
`wrap64` for `usize`), matching release-build semantics.  Strings are Lean
`String`s; the regex `^\s*([^\s;]+)\s*(?:;(.*))?$` of the source is embedded as
a direct scanner with the same capture semantics (capture 0 = whole match,
capture 1 = the token, capture 2 = the parameter tail).  `\s` and `trim` are
modelled on ASCII whitespace, and Unicode one-to-many case mappings are modelled
by ASCII case folding; all inputs appearing in the claims are ASCII, where the
models agree exactly with the Rust primitives.
-/

/-- ASCII whitespace, the fragment of the regex class `\s` exercised here. -/
def isWs (c : Char) : Bool :=
  c == ' ' || c == '\t' || c == '\n' || c == '\r' ||
  c == Char.ofNat 11 || c == Char.ofNat 12

/-- ASCII lower-casing of one character; agrees with Rust `to_lowercase` on ASCII. -/
def lowerChar (c : Char) : Char :=
  if 'A' ≤ c ∧ c ≤ 'Z' then Char.ofNat (c.toNat + 32) else c

/-- Lower-case every character, modelling `str::to_lowercase` on ASCII input. -/
def lowerStr (l : List Char) : List Char := l.map lowerChar

/-- Model of `str::trim` (ASCII whitespace from both ends). -/
def trimWs (l : List Char) : List Char :=
  ((l.dropWhile isWs).reverse.dropWhile isWs).reverse

/-- Model of `str::split(c)`: the pieces between occurrences of `c`,
empty pieces included, one empty piece for the empty string. -/
def splitOnCharL (c : Char) : List Char → List (List Char)
  | [] => [[]]
  | x :: xs =>
    if x = c then [] :: splitOnCharL c xs
    else
      match splitOnCharL c xs with
      | [] => [[x]]
      | h :: t => (x :: h) :: t

/-- Decimal digit run to a number; fails on an empty or non-digit run. -/
def digitsToNat (l : List Char) : Option Nat :=
  if l.isEmpty then none
  else if l.all (fun c => '0' ≤ c && c ≤ '9') then
    some (l.foldl (fun n c => n * 10 + (c.toNat - 48)) 0)
  else none

/-- Model of `str::parse::<isize>`: optional sign, decimal digits,
value required to fit in a 64-bit signed integer. -/
def parseIsize (l : List Char) : Option Int :=
  match l with
  | '+' :: rest =>
    (digitsToNat rest).bind fun n =>
      if n ≤ 2 ^ 63 - 1 then some (n : Int) else none
  | '-' :: rest =>
    (digitsToNat rest).bind fun n =>
      if n ≤ 2 ^ 63 then some (-(n : Int)) else none
  | _ =>
    (digitsToNat l).bind fun n =>
      if n ≤ 2 ^ 63 - 1 then some (n : Int) else none

/-- Two's-complement wrap into the `isize` (64-bit signed) range. -/
def wrapI64 (n : Int) : Int := (n + 2 ^ 63) % 2 ^ 64 - 2 ^ 63

/-- Wrap into the `usize` (64-bit unsigned) range. -/
def wrap64 (n : Int) : Int := n % 2 ^ 64

/-- Three-way comparison on `Int`, the model of `isize::cmp`/`usize::cmp`. -/
def cmpInt (a b : Int) : Ordering :=
  if a < b then Ordering.lt else if a = b then Ordering.eq else Ordering.gt

/-- The `Charset` struct of `charsets.rs`: a parsed header entry. -/
structure Charset where
  charset : String
  q : Int
  i : Nat
deriving DecidableEq, Repr

/-- The `Priority` struct of `charsets.rs`: a ranked candidate. -/
structure Priority where
  i : Option Nat
  o : Int
  q : Int
  s : Int
deriving DecidableEq, Repr

/-- `Priority::default()`: the no-match sentinel. -/
def defaultPriority : Priority := { i := none, o := -1, q := 0, s := 0 }

/-- The regex `^\s*([^\s;]+)\s*(?:;(.*))?$` as a scanner.  Returns
`(capture 1, capture 2)` on success: the token (maximal run of
non-whitespace non-semicolon characters after optional whitespace) and,
when a `;` follows the token and optional whitespace, the tail after it.
`.` does not match a newline and `$` is the end of the haystack, so a
parameter tail containing a newline makes the whole match fail. -/
def simpleCharsetMatch (cs : List Char) : Option (List Char × Option (List Char)) :=
  let afterWs := cs.dropWhile isWs
  let tok := afterWs.takeWhile (fun c => !(isWs c) && c != ';')
  if tok.isEmpty then none
  else
    match (afterWs.drop tok.length).dropWhile isWs with
    | [] => some (tok, none)
    | c :: opts =>
      if c = ';' then
        if opts.contains '\n' then none else some (tok, some opts)
      else none

/-- One iteration of the parameter loop of `parse_charset`: trim the
parameter, split it on `=`, and when it is exactly `q=<value>` replace the
quality with the parsed value, defaulting to 1 when parsing fails. -/
def qParam (q : Int) (param : List Char) : Int :=
  match splitOnCharL '=' (trimWs param) with
  | [k, v] => if k = ['q'] then (parseIsize v).getD 1 else q
  | _ => q

/-- `parse_charset` from `charsets.rs`.  Faithful to the source, which takes
`captures.get(0)` (the whole match, i.e. the whole segment) as the charset
and `captures.get(1)` (the token, not the parameter tail) as the parameter
list, and parses `q` values with `parse::<isize>()`, defaulting to 1. -/
def parse_charset (set : String) (i : Nat) : Option Charset :=
  match simpleCharsetMatch set.data with
  | none => none
  | some (tok, _opts) =>
    some { charset := set, q := (splitOnCharL ';' tok).foldl qParam 1, i := i }

/-- `parse_accept_charset`: split on commas, number every segment
(also the ones that fail to parse), keep the parsed ones. -/
def parse_accept_charset (accept : String) : List Charset :=
  ((splitOnCharL ',' accept.data).enum).filterMap
    (fun p => parse_charset (String.mk p.2) p.1)

/-- `specify` from `charsets.rs`: exact case-insensitive match gives
specificity 1, a `*` entry matches anything with specificity 0,
anything else is no match.  `spec.i as isize` is the wrapping cast. -/
def specify (charset : String) (spec : Charset) (index : Nat) : Option Priority :=
  if lowerStr spec.charset.data = lowerStr charset.data then
    some { i := some index, o := wrapI64 spec.i, q := spec.q, s := 1 }
  else if spec.charset = "*" then
    some { i := some index, o := wrapI64 spec.i, q := spec.q, s := 0 }
  else none

/-- The loop body of `get_charset_priority`: keep the spec when it improves
on the running best.  The guard subtracts `isize` fields, modelled with
wrapping. -/
def priorityStep (charset : String) (index : Nat) (priority : Priority) (accept : Charset) :
    Priority :=
  match specify charset accept index with
  | some spec =>
    if wrapI64 (priority.s - spec.s) < 0 ∨ wrapI64 (priority.q - spec.q) < 0 ∨
        wrapI64 (priority.o - spec.o) < 0 then
      spec
    else priority
  | none => priority

/-- `get_charset_priority`: fold over the parsed entries keeping the spec
that improves on the running best, which starts at `Priority::default()`. -/
def get_charset_priority (charset : String) (accepted : List Charset) (index : Nat) : Priority :=
  accepted.foldl (priorityStep charset index) defaultPriority

/-- `compare_charsets`: both keys are computed eagerly, as in the source;
`(b.q - a.q)` is an `isize` subtraction and `(a.i - b.i)` a `usize`
subtraction, both modelled with wrapping. -/
def compare_charsets (a b : Charset) : Ordering :=
  let q := cmpInt (wrapI64 (b.q - a.q)) 0
  let i := cmpInt (wrap64 ((a.i : Int) - (b.i : Int))) 0
  if q ≠ Ordering.eq then q
  else if i ≠ Ordering.eq then i
  else Ordering.eq

/-- `compare_priority`: four eagerly computed keys; `q`, `s`, `o` are
`isize` subtractions, and the last is the `usize` subtraction
`a.i.unwrap_or(0) - b.i.unwrap_or(0)`, all modelled with wrapping. -/
def compare_priority (a b : Priority) : Ordering :=
  let q := cmpInt (wrapI64 (b.q - a.q)) 0
  let s := cmpInt (wrapI64 (b.s - a.s)) 0
  let o := cmpInt (wrapI64 (a.o - b.o)) 0
  let i := cmpInt (wrap64 ((a.i.getD 0 : Int) - (b.i.getD 0 : Int))) 0
  if q ≠ Ordering.eq then q
  else if s ≠ Ordering.eq then s
  else if o ≠ Ordering.eq then o
  else if i ≠ Ordering.eq then i
  else Ordering.eq

/-- `get_full_charset`: project the stored charset string. -/
def get_full_charset (spec : Charset) : String := spec.charset

/-- Insert an element into an already sorted list, after every element it
does not compare strictly less than.  The inserted element is always the
one that stood later in the original list, which is also the argument
order in which `slice::sort_by`'s stable sort invokes its comparator. -/
def insertCmp (cmp : α → α → Ordering) (x : α) : List α → List α
  | [] => [x]
  | y :: ys =>
    match cmp x y with
    | Ordering.lt => x :: y :: ys
    | _ => y :: insertCmp cmp x ys

/-- Stable insertion sort, the model of `slice::sort_by` (a stable sort). -/
def sort_by (cmp : α → α → Ordering) (l : List α) : List α :=
  l.foldl (fun acc x => insertCmp cmp x acc) []

/-- First index whose element satisfies the predicate (list length when
none does), the model of `Iterator::position`. -/
def posIdx (pred : α → Bool) : List α → Nat
  | [] => 0
  | x :: xs => if pred x then 0 else posIdx pred xs + 1

/-- The result mapping of `preferred_charsets`: each sorted rank is mapped
back through `provided[priorities.iter().position(|p| p == priority).unwrap()]`,
a lookup of the rank's position in the sorted vector itself.  The `getD ""`
models the abort of an out-of-bounds index and is proved unreachable. -/
def rankOutput (provided : List String) (sorted : List Priority) : List String :=
  sorted.map (fun priority =>
    (provided.get? (posIdx (fun p => decide (p = priority)) sorted)).getD "")

/-- The ranks of the provided candidates that survive the
positive-quality filter, in candidate order. -/
def rankedProvided (accept : Option String) (provided : List String) : List Priority :=
  (provided.enum.map
      (fun p => get_charset_priority p.2 (parse_accept_charset (accept.getD "*")) p.1)).filter
    (fun spec => decide (0 < spec.q))

/-- `preferred_charsets` from `charsets.rs`.  With no provided list the
positive-quality parsed entries are sorted and echoed.  Otherwise each
provided candidate is ranked, zero-quality ranks are dropped, the ranks
are sorted in place, and the sorted vector is mapped through `rankOutput`. -/
def preferred_charsets (accept : Option String) (provided : List String) : List String :=
  if provided.length = 0 then
    (sort_by compare_charsets
        ((parse_accept_charset (accept.getD "*")).filter
          (fun spec => decide (0 < spec.q)))).map
      get_full_charset
  else
    rankOutput provided (sort_by compare_priority (rankedProvided accept provided))

/-- `charsets` from `lib.rs`. -/
def charsets (accept : Option String) (provided : List String) : List String :=
  preferred_charsets accept provided

/-- `charset` from `lib.rs`: the head of `charsets`, or none when empty. -/
def charset (accept : Option String) (provided : List String) : Option String :=
  match charsets accept provided with
  | [] => none
  | x :: _ => some x

/-- The comparator as the specification describes it: lexicographic on
quality (higher first), specificity (higher first), preference order
(lower first), candidate index (lower first, absent read as 0). -/
def compare_priority_described (a b : Priority) : Ordering :=
  (cmpInt b.q a.q).then
    ((cmpInt b.s a.s).then
      ((cmpInt a.o b.o).then
        (cmpInt (a.i.getD 0 : Int) (b.i.getD 0 : Int))))

/-- Checked `isize` subtraction: fails where a release build would wrap
and a debug build would abort. -/
def chkIsizeSub (a b : Int) : Option Int :=
  if -(2 ^ 63) ≤ a - b ∧ a - b ≤ 2 ^ 63 - 1 then some (a - b) else none

/-- Checked `usize` subtraction: fails where the source would underflow. -/
def chkUsizeSub (a b : Nat) : Option Nat :=
  if b ≤ a then some (a - b) else none

/-- `compare_charsets` with both subtractions checked. -/
def compare_charsets_chk (a b : Charset) : Option Ordering :=
  (chkIsizeSub b.q a.q).bind fun dq =>
  (chkUsizeSub a.i b.i).map fun di =>
    let q := cmpInt dq 0
    let i := cmpInt (di : Int) 0
    if q ≠ Ordering.eq then q
    else if i ≠ Ordering.eq then i
    else Ordering.eq

/-- `compare_priority` with all four subtractions checked. -/
def compare_priority_chk (a b : Priority) : Option Ordering :=
  (chkIsizeSub b.q a.q).bind fun dq =>
  (chkIsizeSub b.s a.s).bind fun ds =>
  (chkIsizeSub a.o b.o).bind fun dno =>
  (chkUsizeSub (a.i.getD 0) (b.i.getD 0)).map fun di =>
    let q := cmpInt dq 0
    let s := cmpInt ds 0
    let o := cmpInt dno 0
    let i := cmpInt (di : Int) 0
    if q ≠ Ordering.eq then q
    else if s ≠ Ordering.eq then s
    else if o ≠ Ordering.eq then o
    else if i ≠ Ordering.eq then i
    else Ordering.eq

/-- Insertion with a checked comparator; fails as soon as one comparison fails. -/
def insertChk (cmp : α → α → Option Ordering) (x : α) : List α → Option (List α)
  | [] => some [x]
  | y :: ys =>
    match cmp x y with
    | none => none
    | some Ordering.lt => some (x :: y :: ys)
    | some _ => (insertChk cmp x ys).map (fun l => y :: l)

/-- Insertion sort with a checked comparator. -/
def sortChk (cmp : α → α → Option Ordering) (l : List α) : Option (List α) :=
  l.foldl (fun acc x => acc.bind (insertChk cmp x)) (some [])

/-- Map with a fallible function, failing when any element fails. -/
def mapOpt (f : α → Option β) : List α → Option (List β)
  | [] => some []
  | x :: xs => (f x).bind fun y => (mapOpt f xs).map fun ys => y :: ys

/-- The result mapping with a fallible candidate lookup. -/
def rankOutputChk (provided : List String) (sorted : List Priority) : Option (List String) :=
  mapOpt (fun priority =>
    provided.get? (posIdx (fun p => decide (p = priority)) sorted)) sorted

/-- `preferred_charsets` with every comparator subtraction checked and the
final `provided[position(..).unwrap()]` lookup made fallible: the checked
run fails exactly where a run of the source could abort. -/
def preferred_charsets_chk (accept : Option String) (provided : List String) :
    Option (List String) :=
  if provided.length = 0 then
    (sortChk compare_charsets_chk
        ((parse_accept_charset (accept.getD "*")).filter
          (fun spec => decide (0 < spec.q)))).map
      (fun l => l.map get_full_charset)
  else
    (sortChk compare_priority_chk (rankedProvided accept provided)).bind
      (rankOutputChk provided)

/-- `charset` on top of the checked pipeline. -/
def charset_chk (accept : Option String) (provided : List String) :
    Option (Option String) :=
  (preferred_charsets_chk accept provided).map fun set =>
    match set with
    | [] => none
    | x :: _ => some x

/-- Field ranges that every rank surviving the positive-quality filter
enjoys (for headers of fewer than `2 ^ 63` segments and provided lists of
fewer than `2 ^ 64` entries). -/
def GoodP (p : Priority) : Prop :=
  0 < p.q ∧ p.q ≤ 2 ^ 63 - 1 ∧ 0 ≤ p.o ∧ p.o < 2 ^ 63 ∧
    (p.s = 0 ∨ p.s = 1) ∧ (p.i.getD 0 : Nat) < 2 ^ 64

/-- Field ranges of parsed entries surviving the positive-quality filter
in the no-provided-list path. -/
def GoodC (c : Charset) : Prop :=
  0 < c.q ∧ c.q ≤ 2 ^ 63 - 1 ∧ c.i < 2 ^ 64

theorem wrapI64_eq_self {n : Int} (h1 : -(2 ^ 63) ≤ n) (h2 : n ≤ 2 ^ 63 - 1) :
    wrapI64 n = n := by
  unfold wrapI64; omega

theorem wrap64_eq_ofNat {a b : Nat} (h : b ≤ a) (h2 : a < 2 ^ 64) :
    wrap64 ((a : Int) - (b : Int)) = ((a - b : Nat) : Int) := by
  unfold wrap64; omega

theorem chkIsizeSub_eq {a b : Int} (h1 : -(2 ^ 63) ≤ a - b) (h2 : a - b ≤ 2 ^ 63 - 1) :
    chkIsizeSub a b = some (a - b) := by
  unfold chkIsizeSub
  rw [if_pos ⟨h1, h2⟩]

theorem chkUsizeSub_eq {a b : Nat} (h : b ≤ a) :
    chkUsizeSub a b = some (a - b) := by
  unfold chkUsizeSub
  rw [if_pos h]

theorem compare_priority_chk_eq {a b : Priority} (ha : GoodP a) (hb : GoodP b)
    (hi : b.i.getD 0 ≤ a.i.getD 0) :
    compare_priority_chk a b = some (compare_priority a b) := by
  obtain ⟨haq1, haq2, hao1, hao2, has, hai⟩ := ha
  obtain ⟨hbq1, hbq2, hbo1, hbo2, hbs, hbi⟩ := hb
  rw [compare_priority_chk, compare_priority,
    chkIsizeSub_eq (a := b.q) (b := a.q) (by omega) (by omega),
    chkIsizeSub_eq (a := b.s) (b := a.s) (by rcases has with h | h <;> rcases hbs with h2 | h2 <;> omega)
      (by rcases has with h | h <;> rcases hbs with h2 | h2 <;> omega),
    chkIsizeSub_eq (a := a.o) (b := b.o) (by omega) (by omega),
    chkUsizeSub_eq hi,
    wrapI64_eq_self (n := b.q - a.q) (by omega) (by omega),
    wrapI64_eq_self (n := b.s - a.s) (by rcases has with h | h <;> rcases hbs with h2 | h2 <;> omega)
      (by rcases has with h | h <;> rcases hbs with h2 | h2 <;> omega),
    wrapI64_eq_self (n := a.o - b.o) (by omega) (by omega),
    wrap64_eq_ofNat hi hai]
  rfl

theorem compare_charsets_chk_eq {a b : Charset} (ha : GoodC a) (hb : GoodC b)
    (hi : b.i ≤ a.i) :
    compare_charsets_chk a b = some (compare_charsets a b) := by
  obtain ⟨haq1, haq2, hai⟩ := ha
  obtain ⟨hbq1, hbq2, hbi⟩ := hb
  rw [compare_charsets_chk, compare_charsets,
    chkIsizeSub_eq (a := b.q) (b := a.q) (by omega) (by omega),
    chkUsizeSub_eq hi,
    wrapI64_eq_self (n := b.q - a.q) (by omega) (by omega),
    wrap64_eq_ofNat hi hai]
  rfl

theorem insertChk_eq {α} {cmp : α → α → Ordering} {cmp2 : α → α → Option Ordering}
    {x : α} : ∀ {acc : List α}, (∀ y ∈ acc, cmp2 x y = some (cmp x y)) →
    insertChk cmp2 x acc = some (insertCmp cmp x acc)
  | [], _ => rfl
  | y :: ys, h => by
    have hy := h y (by simp)
    have hys : insertChk cmp2 x ys = some (insertCmp cmp x ys) :=
      insertChk_eq (fun z hz => h z (by simp [hz]))
    rw [insertChk, insertCmp, hy]
    cases cmp x y <;> simp [hys]

theorem mem_insertCmp {α} {cmp : α → α → Ordering} {x z : α} :
    ∀ {acc : List α}, z ∈ insertCmp cmp x acc ↔ z = x ∨ z ∈ acc
  | [] => by simp [insertCmp, eq_comm]
  | y :: ys => by
    rw [insertCmp]
    cases cmp x y <;>
      simp [@mem_insertCmp _ cmp x z ys, eq_comm] <;>
      tauto

theorem length_insertCmp {α} {cmp : α → α → Ordering} {x : α} :
    ∀ {acc : List α}, (insertCmp cmp x acc).length = acc.length + 1
  | [] => rfl
  | y :: ys => by
    rw [insertCmp]
    cases cmp x y <;>
      simp [@length_insertCmp _ cmp x ys]

theorem sortFoldChk_eq {α} {cmp : α → α → Ordering} {cmp2 : α → α → Option Ordering} :
    ∀ (l acc : List α),
      (∀ x ∈ l, ∀ y ∈ acc, cmp2 x y = some (cmp x y)) →
      l.Pairwise (fun a b => cmp2 b a = some (cmp b a)) →
      l.foldl (fun a x => a.bind (insertChk cmp2 x)) (some acc) =
        some (l.foldl (fun a x => insertCmp cmp x a) acc)
  | [], _, _, _ => rfl
  | x :: xs, acc, hcross, hpw => by
    have hpw2 := List.pairwise_cons.mp hpw
    have hins : insertChk cmp2 x acc = some (insertCmp cmp x acc) :=
      insertChk_eq (fun y hy => hcross x (by simp) y hy)
    have hcross2 : ∀ z ∈ xs, ∀ y ∈ insertCmp cmp x acc, cmp2 z y = some (cmp z y) := by
      intro z hz y hy
      rcases mem_insertCmp.mp hy with rfl | hy2
      · exact hpw2.1 z hz
      · exact hcross z (by simp [hz]) y hy2
    rw [List.foldl_cons, List.foldl_cons]
    simp only [Option.bind_eq_bind, Option.some_bind, hins]
    exact sortFoldChk_eq xs _ hcross2 hpw2.2

theorem sortChk_eq {α} {cmp : α → α → Ordering} {cmp2 : α → α → Option Ordering}
    {l : List α} (h : l.Pairwise (fun a b => cmp2 b a = some (cmp b a))) :
    sortChk cmp2 l = some (sort_by cmp l) :=
  sortFoldChk_eq l [] (fun _ _ y hy => absurd hy (List.not_mem_nil y)) h

theorem length_sortFold {α} {cmp : α → α → Ordering} :
    ∀ (l acc : List α),
      (l.foldl (fun a x => insertCmp cmp x a) acc).length = acc.length + l.length
  | [], _ => rfl
  | x :: xs, acc => by
    rw [List.foldl_cons, length_sortFold xs _, length_insertCmp, List.length_cons]
    omega

theorem length_sort_by {α} {cmp : α → α → Ordering} {l : List α} :
    (sort_by cmp l).length = l.length := by
  rw [sort_by, length_sortFold]
  simp

theorem mem_sortFold {α} {cmp : α → α → Ordering} {z : α} :
    ∀ {l acc : List α},
      (z ∈ l.foldl (fun a x => insertCmp cmp x a) acc ↔ z ∈ acc ∨ z ∈ l)
  | [], _ => by simp
  | x :: xs, acc => by
    rw [List.foldl_cons]
    rw [mem_sortFold (l := xs)]
    simp [mem_insertCmp]
    tauto

theorem mem_sort_by {α} {cmp : α → α → Ordering} {z : α} {l : List α} :
    z ∈ sort_by cmp l ↔ z ∈ l := by
  rw [sort_by, mem_sortFold]
  simp

theorem posIdx_lt_length {α} {pred : α → Bool} :
    ∀ {l : List α}, (∃ x ∈ l, pred x) → posIdx pred l < l.length
  | [], h => by simp at h
  | x :: xs, h => by
    rw [posIdx]
    by_cases hx : pred x
    · rw [if_pos hx]; simp
    · rw [if_neg hx]
      have : ∃ y ∈ xs, pred y := by
        obtain ⟨y, hy, hpy⟩ := h
        rcases List.mem_cons.mp hy with rfl | hy2
        · exact absurd hpy hx
        · exact ⟨y, hy2, hpy⟩
      have := posIdx_lt_length this
      simpa using this

theorem mapOpt_eq_map {α β} {f : α → Option β} {g : α → β} :
    ∀ {l : List α}, (∀ x ∈ l, f x = some (g x)) → mapOpt f l = some (l.map g)
  | [], _ => rfl
  | x :: xs, h => by
    rw [mapOpt, h x (by simp), mapOpt_eq_map (fun y hy => h y (by simp [hy]))]
    rfl

theorem parseIsize_range {l : List Char} {n : Int} (h : parseIsize l = some n) :
    -(2 ^ 63) ≤ n ∧ n ≤ 2 ^ 63 - 1 := by
  unfold parseIsize at h
  split at h <;>
    [rcases hd : digitsToNat _ with _ | k;
     rcases hd : digitsToNat _ with _ | k;
     rcases hd : digitsToNat _ with _ | k] <;>
    rw [hd] at h <;> simp at h <;> omega

theorem qParam_range {q : Int} {p : List Char}
    (h : -(2 ^ 63) ≤ q ∧ q ≤ 2 ^ 63 - 1) :
    -(2 ^ 63) ≤ qParam q p ∧ qParam q p ≤ 2 ^ 63 - 1 := by
  unfold qParam
  split
  · split
    · rcases hv : parseIsize _ with _ | m
      · simp
      · simpa using parseIsize_range hv
    · exact h
  · exact h

theorem qFold_range {params : List (List Char)} :
    ∀ {q0 : Int}, -(2 ^ 63) ≤ q0 ∧ q0 ≤ 2 ^ 63 - 1 →
      -(2 ^ 63) ≤ params.foldl qParam q0 ∧ params.foldl qParam q0 ≤ 2 ^ 63 - 1 := by
  induction params with
  | nil => intro q0 h; exact h
  | cons p ps ih =>
    intro q0 h
    rw [List.foldl_cons]
    exact ih (qParam_range h)

theorem parse_charset_some {s : String} {i : Nat} {c : Charset}
    (h : parse_charset s i = some c) :
    c.charset = s ∧ c.i = i ∧ -(2 ^ 63) ≤ c.q ∧ c.q ≤ 2 ^ 63 - 1 := by
  unfold parse_charset at h
  split at h
  · exact absurd h (by simp)
  · have hc := Option.some.inj h
    subst hc
    refine ⟨rfl, rfl, ?_⟩
    exact qFold_range ⟨by omega, by omega⟩

theorem splitOnCharL_length_le {c : Char} :
    ∀ {l : List Char}, (splitOnCharL c l).length ≤ l.length + 1
  | [] => by simp [splitOnCharL]
  | x :: xs => by
    rw [splitOnCharL]
    have ih := splitOnCharL_length_le (c := c) (l := xs)
    split
    · simp only [List.length_cons]
      omega
    · rcases hs : splitOnCharL c xs with _ | ⟨h1, t⟩
      · simp
      · rw [hs] at ih
        show ((x :: h1) :: t).length ≤ (x :: xs).length + 1
        simp only [List.length_cons] at ih ⊢
        omega

theorem mem_enumFrom_bounds {α} {p : Nat × α} :
    ∀ {n : Nat} {l : List α}, p ∈ l.enumFrom n → n ≤ p.1 ∧ p.1 < n + l.length
  | _, [], h => by simp at h
  | n, x :: xs, h => by
    rw [List.enumFrom_cons] at h
    rcases List.mem_cons.mp h with rfl | h2
    · simp
    · have := mem_enumFrom_bounds h2
      simp only [List.length_cons]
      omega

theorem pairwise_enumFrom {α} : ∀ (n : Nat) (l : List α),
    (l.enumFrom n).Pairwise (fun a b => a.1 < b.1)
  | _, [] => List.Pairwise.nil
  | n, x :: xs => by
    rw [List.enumFrom_cons]
    exact List.Pairwise.cons
      (fun b hb => by have := mem_enumFrom_bounds hb; omega)
      (pairwise_enumFrom (n + 1) xs)

theorem parse_accept_mem {s : String} {c : Charset} (h : c ∈ parse_accept_charset s) :
    -(2 ^ 63) ≤ c.q ∧ c.q ≤ 2 ^ 63 - 1 ∧ c.i ≤ s.data.length := by
  unfold parse_accept_charset at h
  rcases List.mem_filterMap.mp h with ⟨p, hmem, hp⟩
  obtain ⟨_, hi, hq1, hq2⟩ := parse_charset_some hp
  have hb := mem_enumFrom_bounds
    (show p ∈ (splitOnCharL ',' s.data).enumFrom 0 from hmem)
  have hsl := splitOnCharL_length_le (c := ',') (l := s.data)
  refine ⟨hq1, hq2, ?_⟩
  omega

theorem parse_accept_pairwise (s : String) :
    (parse_accept_charset s).Pairwise (fun a b => a.i < b.i) := by
  unfold parse_accept_charset
  rw [List.enum_eq_enumFrom]
  refine List.Pairwise.filterMap _ ?_ (pairwise_enumFrom 0 _)
  intro p p2 hlt b hb b2 hb2
  have h1 := (parse_charset_some (Option.mem_def.mp hb)).2.1
  have h2 := (parse_charset_some (Option.mem_def.mp hb2)).2.1
  rw [h1, h2]
  exact hlt

theorem specify_some {charset : String} {spec : Charset} {index : Nat} {p : Priority}
    (h : specify charset spec index = some p) :
    p.i = some index ∧ p.o = wrapI64 spec.i ∧ p.q = spec.q ∧ (p.s = 0 ∨ p.s = 1) := by
  unfold specify at h
  split at h
  · have hp := Option.some.inj h
    subst hp
    exact ⟨rfl, rfl, rfl, Or.inr rfl⟩
  · split at h
    · have hp := Option.some.inj h
      subst hp
      exact ⟨rfl, rfl, rfl, Or.inl rfl⟩
    · exact absurd h (by simp)

/-- What a rank can be: the sentinel, or the image of some entry
satisfying `S` at the given candidate index. -/
def RankedFrom (S : Charset → Prop) (index : Nat) (p : Priority) : Prop :=
  p = defaultPriority ∨
    ∃ a, S a ∧ p.i = some index ∧ p.o = wrapI64 a.i ∧ p.q = a.q ∧ (p.s = 0 ∨ p.s = 1)

theorem priorityStep_of_specify_none {charset : String} {index : Nat} {init : Priority}
    {a : Charset} (h : specify charset a index = none) :
    priorityStep charset index init a = init := by
  simp only [priorityStep, h]

theorem priorityStep_of_specify_some {charset : String} {index : Nat} {init : Priority}
    {a : Charset} {spec : Priority} (h : specify charset a index = some spec) :
    priorityStep charset index init a = spec ∨ priorityStep charset index init a = init := by
  simp only [priorityStep, h]
  split
  · exact Or.inl rfl
  · exact Or.inr rfl

theorem rankedFold {charset : String} {index : Nat} {S : Charset → Prop} :
    ∀ {l : List Charset} {init : Priority}, (∀ a ∈ l, S a) → RankedFrom S index init →
      RankedFrom S index (l.foldl (priorityStep charset index) init)
  | [], _, _, h => h
  | a :: l, init, hS, h => by
    rw [List.foldl_cons]
    refine rankedFold (fun b hb => hS b (List.mem_cons_of_mem a hb)) ?_
    rcases hsp : specify charset a index with _ | spec
    · rw [priorityStep_of_specify_none hsp]
      exact h
    · rcases @priorityStep_of_specify_some charset index init a spec hsp with he | he
      · rw [he]
        obtain ⟨h1, h2, h3, h4⟩ := specify_some hsp
        exact Or.inr ⟨a, hS a (List.mem_cons_self a l), h1, h2, h3, h4⟩
      · rw [he]
        exact h

theorem gcp_ranked {charset : String} {index : Nat} {accepted : List Charset} :
    RankedFrom (fun a => a ∈ accepted) index (get_charset_priority charset accepted index) :=
  rankedFold (fun _ ha => ha) (Or.inl rfl)

theorem gcp_i_of_q_pos {charset : String} {index : Nat} {accepted : List Charset}
    (h : 0 < (get_charset_priority charset accepted index).q) :
    (get_charset_priority charset accepted index).i = some index := by
  rcases @gcp_ranked charset index accepted with hd | ⟨a, _, h1, _⟩
  · rw [hd] at h
    exact absurd h (by simp [defaultPriority])
  · exact h1

theorem gcp_good {charset : String} {index : Nat} {accepted : List Charset} {m : Nat}
    (hacc : ∀ a ∈ accepted, -(2 ^ 63) ≤ a.q ∧ a.q ≤ 2 ^ 63 - 1 ∧ a.i ≤ m)
    (hm : m < 2 ^ 63) (hidx : index < 2 ^ 64)
    (h : 0 < (get_charset_priority charset accepted index).q) :
    GoodP (get_charset_priority charset accepted index) := by
  rcases @gcp_ranked charset index accepted with
    hd | ⟨a, ha, h1, h2, h3, h4⟩
  · rw [hd] at h
    exact absurd h (by simp [defaultPriority])
  · obtain ⟨hq1, hq2, hi⟩ := hacc a ha
    have ho : wrapI64 a.i = (a.i : Int) := wrapI64_eq_self (by omega) (by omega)
    refine ⟨h, ?_, ?_, ?_, h4, ?_⟩
    · rw [h3]; exact hq2
    · rw [h2, ho]; omega
    · rw [h2, ho]; omega
    · rw [h1]; simpa using hidx

theorem rankedProvided_good {accept : Option String} {provided : List String}
    (hA : (accept.getD "*").data.length < 2 ^ 63) (hP : provided.length < 2 ^ 64) :
    ∀ p ∈ rankedProvided accept provided, GoodP p := by
  intro p hp
  unfold rankedProvided at hp
  have hq := (List.mem_filter.mp hp).2
  have hp2 := (List.mem_filter.mp hp).1
  rcases List.mem_map.mp hp2 with ⟨⟨idx, prov⟩, hmem, rfl⟩
  simp only [decide_eq_true_eq] at hq
  have hidx := (mem_enumFrom_bounds (show _ ∈ provided.enumFrom 0 from hmem)).2
  refine gcp_good (m := (accept.getD "*").data.length) ?_ hA ?_ hq
  · intro a ha
    exact parse_accept_mem ha
  · omega

theorem rankedProvided_pairwise (accept : Option String) (provided : List String) :
    (rankedProvided accept provided).Pairwise (fun a b => a.i.getD 0 < b.i.getD 0) := by
  unfold rankedProvided
  have h1 : (provided.enum).Pairwise (fun a b => a.1 < b.1) := by
    rw [List.enum_eq_enumFrom]
    exact pairwise_enumFrom 0 provided
  have h2 := h1.map
    (f := fun p => get_charset_priority p.2 (parse_accept_charset (accept.getD "*")) p.1)
    (S := fun x y => 0 < x.q → 0 < y.q → x.i.getD 0 < y.i.getD 0)
    (fun a b hab hxa hyb => by
      rw [gcp_i_of_q_pos hxa, gcp_i_of_q_pos hyb]
      simpa using hab)
  have h3 := h2.filter (fun spec => decide (0 < spec.q))
  refine h3.imp_of_mem ?_
  intro a b ha hb hS
  have ha2 := (List.mem_filter.mp ha).2
  have hb2 := (List.mem_filter.mp hb).2
  simp only [decide_eq_true_eq] at ha2 hb2
  exact hS ha2 hb2

theorem filteredAccepts_good {s : String} (hA : s.data.length < 2 ^ 63) :
    ∀ c ∈ (parse_accept_charset s).filter (fun spec => decide (0 < spec.q)), GoodC c := by
  intro c hc
  have hq := (List.mem_filter.mp hc).2
  simp only [decide_eq_true_eq] at hq
  obtain ⟨h1, h2, h3⟩ := parse_accept_mem (List.mem_filter.mp hc).1
  exact ⟨hq, h2, by omega⟩

theorem filteredAccepts_pairwise (s : String) :
    ((parse_accept_charset s).filter (fun spec => decide (0 < spec.q))).Pairwise
      (fun a b => a.i < b.i) :=
  (parse_accept_pairwise s).filter _

theorem rankOutputChk_eq {provided : List String} {sorted : List Priority}
    (hlen : sorted.length ≤ provided.length) :
    rankOutputChk provided sorted = some (rankOutput provided sorted) := by
  unfold rankOutputChk rankOutput
  apply mapOpt_eq_map
  intro x hx
  have hpos : posIdx (fun p => decide (p = x)) sorted < sorted.length :=
    posIdx_lt_length ⟨x, hx, by simp⟩
  rcases ho : provided.get? (posIdx (fun p => decide (p = x)) sorted) with _ | v
  · rw [List.get?_eq_none] at ho
    omega
  · rfl

theorem preferred_chk_complete (accept : Option String) (provided : List String)
    (hA : (accept.getD "*").data.length < 2 ^ 63) (hP : provided.length < 2 ^ 64) :
    preferred_charsets_chk accept provided = some (preferred_charsets accept provided) := by
  unfold preferred_charsets_chk preferred_charsets
  by_cases hp : provided.length = 0
  · rw [if_pos hp, if_pos hp]
    have hgood := filteredAccepts_good (s := accept.getD "*") hA
    have hpw := filteredAccepts_pairwise (accept.getD "*")
    have hl := hpw.imp_of_mem
      (S := fun a b => compare_charsets_chk b a = some (compare_charsets b a))
      (fun ha hb hlt => compare_charsets_chk_eq (hgood _ hb) (hgood _ ha) (le_of_lt hlt))
    rw [sortChk_eq hl]
    rfl
  · rw [if_neg hp, if_neg hp]
    have hgood := rankedProvided_good hA hP
    have hpw := rankedProvided_pairwise accept provided
    have hl := hpw.imp_of_mem
      (S := fun a b => compare_priority_chk b a = some (compare_priority b a))
      (fun ha hb hlt => compare_priority_chk_eq (hgood _ hb) (hgood _ ha) (le_of_lt hlt))
    rw [sortChk_eq hl]
    show rankOutputChk provided (sort_by compare_priority (rankedProvided accept provided)) = _
    apply rankOutputChk_eq
    rw [length_sort_by]
    unfold rankedProvided
    refine le_trans (List.length_filter_le _ _) ?_
    rw [List.length_map, List.enum_length]

instance (p : Priority) : Decidable (GoodP p) := by
  unfold GoodP
  exact inferInstance

instance (c : Charset) : Decidable (GoodC c) := by
  unfold GoodC
  exact inferInstance

theorem cmpInt_sub_zero (a b : Int) : cmpInt (a - b) 0 = cmpInt a b := by
  unfold cmpInt
  rcases lt_trichotomy a b with h | h | h <;>
    simp [h, ne_of_gt, ne_of_lt, sub_eq_zero, not_lt_of_gt]

theorem ordIteThen (x y : Ordering) :
    (if x ≠ Ordering.eq then x else y) = x.then y := by
  cases x <;> rfl

theorem ordIteLast (x : Ordering) :
    (if x ≠ Ordering.eq then x else Ordering.eq) = x := by
  cases x <;> rfl

/-- C1: the spec states that the element at rank k of the output is the
provided entry whose match produced the k-th best priority, with casing
from `provided`.  The code looks the rank up in the sorted priority
vector itself, so the first-ranked output for header `ISO-8859-1` against
`["UTF-8", "ISO-8859-1"]` is `"UTF-8"`, although the only surviving rank
was produced by candidate 1 (`ISO-8859-1`).  This contradicts the
repository's own test expecting `ISO-8859-1`. -/
theorem c1_rank_mapped_to_list_position :
    preferred_charsets (some "ISO-8859-1") ["UTF-8", "ISO-8859-1"] = ["UTF-8"] ∧
      (rankedProvided (some "ISO-8859-1") ["UTF-8", "ISO-8859-1"]).map (fun p => p.i) =
        [some 1] := by
  constructor
  · decide
  · decide

/-- C2: the spec states no output entry has effective quality 0.  For
header `utf-8` against `["ISO-8859-1", "utf-8"]` the code outputs
`"ISO-8859-1"`, whose resolved quality is the unmatched sentinel 0. -/
theorem c2_zero_quality_entry_in_result :
    preferred_charsets (some "utf-8") ["ISO-8859-1", "utf-8"] = ["ISO-8859-1"] ∧
      (get_charset_priority "ISO-8859-1" (parse_accept_charset "utf-8") 0).q = 0 := by
  constructor
  · decide
  · decide

/-- C3: the spec states the stored token is the charset name with
surrounding whitespace and the parameter list excluded.  The code stores
capture 0 (the whole segment) instead of capture 1 (the token). -/
theorem c3_token_is_whole_segment :
    parse_charset " ISO-8859-1;q=0.8" 1 =
      some { charset := " ISO-8859-1;q=0.8", q := 1, i := 1 } := by
  decide

/-- C4: the spec states `q=0` yields quality 0 and `q=0.8` yields 0.8.
The code reads the parameter list from capture 1 (the token), so a `;q=`
parameter is never seen, and parses qualities as integers; both segments
get the default quality 1. -/
theorem c4_q_parameter_never_applied :
    parse_charset "UTF-8;q=0" 0 = some { charset := "UTF-8;q=0", q := 1, i := 0 } ∧
      parse_charset "UTF-8;q=0.8" 0 = some { charset := "UTF-8;q=0.8", q := 1, i := 0 } := by
  constructor
  · decide
  · decide

/-- C5 counterexample: with equal quality, specificity and order, the
claimed total order puts the lower candidate index first, so exactly one
of the two comparisons would be `gt`.  The wrapping unsigned subtraction
in the final key makes both directions `gt`: the comparator is not
antisymmetric and does not realise "lower candidateIndex wins". -/
theorem c5_both_directions_greater :
    compare_priority { i := some 0, o := 0, q := 1, s := 1 }
        { i := some 1, o := 0, q := 1, s := 1 } = Ordering.gt ∧
      compare_priority { i := some 1, o := 0, q := 1, s := 1 }
        { i := some 0, o := 0, q := 1, s := 1 } = Ordering.gt := by
  constructor
  · decide
  · decide

/-- C5 amended: on argument pairs whose first argument carries the larger
or equal candidate index -- the only pairs the stable sort ever submits,
since candidates enter in index order -- and whose fields lie in the
ranges ranking produces, `compare_priority` is exactly the described
lexicographic comparison on quality (descending), specificity
(descending), preference order (ascending) and candidate index
(ascending).  On opposite pairs the wrapped final key returns `gt`
instead of `lt`, so the function is not a total order on all pairs. -/
theorem c5_lex_on_sort_call_pairs (a b : Priority) (ha : GoodP a) (hb : GoodP b)
    (hi : b.i.getD 0 ≤ a.i.getD 0) :
    compare_priority a b = compare_priority_described a b := by
  obtain ⟨haq1, haq2, hao1, hao2, has, hai⟩ := ha
  obtain ⟨hbq1, hbq2, hbo1, hbo2, hbs, hbi⟩ := hb
  have hs1 : -(2 ^ 63) ≤ b.s - a.s := by
    rcases has with h | h <;> rcases hbs with h2 | h2 <;> omega
  have hs2 : b.s - a.s ≤ 2 ^ 63 - 1 := by
    rcases has with h | h <;> rcases hbs with h2 | h2 <;> omega
  simp only [compare_priority, compare_priority_described]
  rw [wrapI64_eq_self (n := b.q - a.q) (by omega) (by omega),
    wrapI64_eq_self (n := b.s - a.s) hs1 hs2,
    wrapI64_eq_self (n := a.o - b.o) (by omega) (by omega),
    wrap64_eq_ofNat hi hai,
    Nat.cast_sub hi,
    cmpInt_sub_zero, cmpInt_sub_zero, cmpInt_sub_zero, cmpInt_sub_zero,
    ordIteLast, ordIteThen, ordIteThen, ordIteThen]

/-- Witness for the amended C5 theorem at a concrete argument pair. -/
theorem c5_lex_on_sort_call_pairs_witness :
    (GoodP { i := some 1, o := 0, q := 1, s := 1 } ∧
        GoodP { i := some 0, o := 0, q := 1, s := 0 } ∧
        (({ i := some 0, o := 0, q := 1, s := 0 } : Priority).i.getD 0 ≤
          ({ i := some 1, o := 0, q := 1, s := 1 } : Priority).i.getD 0)) ∧
      compare_priority { i := some 1, o := 0, q := 1, s := 1 }
          { i := some 0, o := 0, q := 1, s := 0 } =
        compare_priority_described { i := some 1, o := 0, q := 1, s := 1 }
          { i := some 0, o := 0, q := 1, s := 0 } :=
  ⟨⟨by decide, by decide, by decide⟩,
    c5_lex_on_sort_call_pairs _ _ (by decide) (by decide) (by decide)⟩

/-- C6: the spec and the repository's test expect
`charset(Some("UTF-8;q=0.8, ISO-8859-1"), [])` to be `Some("ISO-8859-1")`
because the default quality 1 beats 0.8.  The code never parses the
`q=0.8` parameter (wrong capture, integer parse), both entries keep
quality 1, and the first segment -- echoed as the whole match -- wins. -/
theorem c6_quality_does_not_reorder :
    charset (some "UTF-8;q=0.8, ISO-8859-1") [] = some "UTF-8;q=0.8" := by
  decide

/-- C7: the spec and the repository's test expect
`charset(Some("*, UTF-8;q=0"), ["UTF-8", "ISO-8859-1"])` to be
`Some("ISO-8859-1")`, the `q=0` entry excluding UTF-8.  The code never
sees the `q=0` parameter, so UTF-8 is wildcard-matched at quality 1 and
returned first. -/
theorem c7_explicit_zero_not_excluding :
    charset (some "*, UTF-8;q=0") ["UTF-8", "ISO-8859-1"] = some "UTF-8" := by
  decide

/-- C8: for headers of machine-realisable size, the checked pipeline --
every comparator subtraction verified to stay inside its integer type and
the `provided[position(..).unwrap()]` lookup made fallible -- completes
and returns exactly the plain result: no comparator subtraction
underflows on the argument pairs the sort generates, and the lookup never
fails, so `preferred_charsets` and `charset` always return a value. -/
theorem c8_no_underflow_total (accept : Option String) (provided : List String)
    (hA : (accept.getD "*").data.length < 2 ^ 63) (hP : provided.length < 2 ^ 64) :
    preferred_charsets_chk accept provided = some (preferred_charsets accept provided) ∧
      charset_chk accept provided = some (charset accept provided) := by
  have h := preferred_chk_complete accept provided hA hP
  refine ⟨h, ?_⟩
  unfold charset_chk charset charsets
  rw [h]
  rfl

/-- Witness for C8 at a concrete header and provided list. -/
theorem c8_no_underflow_total_witness :
    (((some "ISO-8859-1" : Option String).getD "*").data.length < 2 ^ 63 ∧
        (["UTF-8", "ISO-8859-1"] : List String).length < 2 ^ 64) ∧
      (preferred_charsets_chk (some "ISO-8859-1") ["UTF-8", "ISO-8859-1"] =
          some (preferred_charsets (some "ISO-8859-1") ["UTF-8", "ISO-8859-1"]) ∧
        charset_chk (some "ISO-8859-1") ["UTF-8", "ISO-8859-1"] =
          some (charset (some "ISO-8859-1") ["UTF-8", "ISO-8859-1"])) :=
  ⟨⟨by decide, by decide⟩,
    c8_no_underflow_total (some "ISO-8859-1") ["UTF-8", "ISO-8859-1"] (by decide) (by decide)⟩

/-- C9: an absent header is replaced by `*`, which parses to a single
wildcard entry of quality 1, and with an empty candidate list the sole
result is the string `*`. -/
theorem c9_absent_header_is_wildcard :
    charset none [] = some "*" := by
  decide

/-- C10: `charset` returns the first element of the `charsets` sequence,
and the absent outcome exactly when that sequence is empty. -/
theorem c10_charset_is_head_of_charsets (accept : Option String) (provided : List String) :
    charset accept provided = (charsets accept provided).head? := by
  unfold charset
  cases charsets accept provided <;> rfl
